import Mathlib

/-!
Verification of the mutation-testing core in `mutate.py`: the Mutation
record, the candidate generator (`generate_mutation_candidates` with its
helper `_find_all_substrings` and the boundary-aware constant matcher),
the applier (`apply_mutation`) and the diff renderer (`unified_diff_u3`).

Lines are embedded as `List Char`; the line sequence as `List (List Char)`.
Python slices with non-negative bounds are `pySlice`.  The `line_no` field
is an `Int`, as in the Python dataclass, so that the applier's negative
indexing behaviour is representable.
-/

namespace Mutate

/-- Python `line[s:e]` for non-negative bounds: elements at positions
`s ≤ p < e`, clamped to the list. -/
def pySlice (l : List Char) (s e : Nat) : List Char := (l.drop s).take (e - s)

/-- The `Mutation` dataclass of `mutate.py` (frozen, value equality). -/
structure Mutation where
  operator : String
  line_no : Int
  col_start : Nat
  col_end : Nat
  before : List Char
  after : List Char
deriving DecidableEq, Repr

/-- `line[i:i+len(b)] == b`: the literal `b` occurs at offset `i`. -/
def matchesAt (line b : List Char) (i : Nat) : Bool :=
  pySlice line i (i + b.length) == b

/-- Python `line.find(before, start)`: the least index `idx ≥ start` at
which `before` occurs, `none` when there is no such index. -/
def strFind (line b : List Char) (start : Nat) : Option Nat :=
  (List.range (line.length + 1)).find? (fun i => decide (start ≤ i) && matchesAt line b i)

theorem strFind_some_bounds {line b : List Char} {start idx : Nat}
    (h : strFind line b start = some idx) : start ≤ idx ∧ idx ≤ line.length := by
  have hmem := List.mem_of_find?_eq_some h
  have hp := List.find?_some h
  rw [List.mem_range] at hmem
  simp only [Bool.and_eq_true, decide_eq_true_eq] at hp
  exact ⟨hp.1, by omega⟩

/-- The loop of `_find_all_substrings` from a given scan start: repeatedly
`find` the literal, emit `(idx, idx + len(before))`, resume at `idx + 1`.
The loop terminates because the scan start strictly increases and is
bounded by the line length; `fuel` makes that bound structural
(`findAllFrom_eq` shows any `fuel ≥ line.length + 1 - start` is exact). -/
def findAllFrom (line b : List Char) (start fuel : Nat) : List (Nat × Nat) :=
  match fuel with
  | 0 => []
  | fuel + 1 =>
    match strFind line b start with
    | none => []
    | some idx => (idx, idx + b.length) :: findAllFrom line b (idx + 1) fuel

/-- `_find_all_substrings(line, before)`: all occurrences, overlapping
included, scanning from offset 0. -/
def find_all_substrings (line b : List Char) : List (Nat × Nat) :=
  findAllFrom line b 0 (line.length + 1)

/-- `ror_map` (dict iteration = insertion order). -/
def ror_map : List (List Char × List Char) :=
  [(" == ".toList, " != ".toList), (" != ".toList, " == ".toList),
   (" <= ".toList, " < ".toList), (" < ".toList, " <= ".toList),
   (" >= ".toList, " > ".toList), (" > ".toList, " >= ".toList)]

/-- `lcr_map`. -/
def lcr_map : List (List Char × List Char) :=
  [(" and ".toList, " or ".toList), (" or ".toList, " and ".toList)]

/-- `nmc_map`. -/
def nmc_map : List (List Char × List Char) :=
  [(" is None".toList, " is not None".toList), (" is not None".toList, " is None".toList)]

/-- `aor_map`. -/
def aor_map : List (List Char × List Char) :=
  [(" - 1".toList, " + 1".toList), (" + 1".toList, " - 1".toList)]

/-- A character matching `[\w.]` (ASCII word character or dot), the class
used in the lookarounds of `int_pat`. -/
def isWordOrDot (c : Char) : Bool := c.isAlphanum || c == '_' || c == '.'

/-- The lookbehind `(?<![\w.])` of `int_pat` holds at `pos`. -/
def boundaryBeforeOk (s : List Char) (pos : Nat) : Bool :=
  if pos = 0 then true
  else
    match s[pos - 1]? with
    | some c => !(isWordOrDot c)
    | none => true

/-- The lookahead `(?![\w.])` of `int_pat` holds at `pos`. -/
def boundaryAfterOk (s : List Char) (pos : Nat) : Bool :=
  match s[pos]? with
  | some c => !(isWordOrDot c)
  | none => true

/-- One attempt of `int_pat = (?<![\w.])(-?1|0|1)(?![\w.])` anchored at
`pos`, with the backtracking of the alternation resolved: the regex
matches `-1` when possible, otherwise the single character `1` or `0`,
always subject to both boundary lookarounds.  Returns the end offset and
the matched token. -/
def crpMatchAt (s : List Char) (pos : Nat) : Option (Nat × List Char) :=
  if boundaryBeforeOk s pos then
    if s[pos]? == some '-' && s[pos + 1]? == some '1' && boundaryAfterOk s (pos + 2) then
      some (pos + 2, ['-', '1'])
    else if s[pos]? == some '1' && boundaryAfterOk s (pos + 1) then
      some (pos + 1, ['1'])
    else if s[pos]? == some '0' && boundaryAfterOk s (pos + 1) then
      some (pos + 1, ['0'])
    else none
  else none

theorem crpMatchAt_progress {s : List Char} {pos e : Nat} {tok : List Char}
    (h : crpMatchAt s pos = some (e, tok)) : pos < e := by
  unfold crpMatchAt at h
  split at h
  · split at h
    · simp only [Option.some.injEq, Prod.mk.injEq] at h
      omega
    · split at h
      · simp only [Option.some.injEq, Prod.mk.injEq] at h
        omega
      · split at h
        · simp only [Option.some.injEq, Prod.mk.injEq] at h
          omega
        · exact absurd h (by simp)
  · exact absurd h (by simp)

/-- `int_pat.finditer(line)` from scan position `pos`: try the pattern at
each position, on success resume at the end of the match (matches are
non-overlapping), on failure advance one position.  The scan position
strictly increases each step, so `line.length` steps of `fuel` reach the
end of the line from position 0. -/
def crpScanFrom (line : List Char) (pos fuel : Nat) : List (Nat × Nat × List Char) :=
  match fuel with
  | 0 => []
  | fuel + 1 =>
    if line.length ≤ pos then []
    else
      match crpMatchAt line pos with
      | some (e, tok) => (pos, e, tok) :: crpScanFrom line e fuel
      | none => crpScanFrom line (pos + 1) fuel

/-- All matches of `int_pat` on the line, in scan order. -/
def crpScan (line : List Char) : List (Nat × Nat × List Char) :=
  crpScanFrom line 0 line.length

/-- The `if tok == "0" ... elif ... else: continue` replacement rule of the
CRP branch. -/
def crpRep (tok : List Char) : Option (List Char) :=
  if tok = ['0'] then some ['1']
  else if tok = ['1'] then some ['0']
  else if tok = ['-', '1'] then some ['0']
  else none

/-- The candidates one operator table contributes for one line: for each
table entry in order, one Mutation per occurrence of its `before`. -/
def tableMutations (op : String) (tbl : List (List Char × List Char))
    (i : Int) (line : List Char) : List Mutation :=
  tbl.flatMap fun p =>
    (find_all_substrings line p.1).map fun se =>
      ⟨op, i, se.1, se.2, p.1, p.2⟩

/-- The CRP candidates for one line: one Mutation per `int_pat` match whose
token the replacement rule covers. -/
def crpMutations (i : Int) (line : List Char) : List Mutation :=
  (crpScan line).filterMap fun m =>
    (crpRep m.2.2).map fun rep => ⟨"CRP", i, m.1, m.2.1, m.2.2, rep⟩

/-- The candidates the generator's per-line loop body emits for line number
`i` (ROR, LCR, NMC, AOR blocks, then the CRP block, in source order). -/
def mutationsForLine (i : Int) (line : List Char) : List Mutation :=
  tableMutations "ROR" ror_map i line ++ tableMutations "LCR" lcr_map i line ++
    tableMutations "NMC" nmc_map i line ++ tableMutations "AOR" aor_map i line ++
    crpMutations i line

/-- The `for i, line in enumerate(lines, start=1)` loop of the generator,
from line number `k`. -/
def rawFrom (k : Int) : List (List Char) → List Mutation
  | [] => []
  | line :: rest => mutationsForLine k line ++ rawFrom (k + 1) rest

/-- The raw candidate list `muts` before deduplication. -/
def rawCandidates (lines : List (List Char)) : List Mutation := rawFrom 1 lines

/-- The `uniq` dict pass: keyed by the full field tuple (which is the whole
record), an existing key keeps its position and its (identical) value, a
new key is appended; `list(uniq.values())` is the accumulator. -/
def uniqKeep (muts : List Mutation) : List Mutation :=
  muts.foldl (fun acc mu => if mu ∈ acc then acc else acc ++ [mu]) []

/-- `generate_mutation_candidates(lines)`. -/
def generate_mutation_candidates (lines : List (List Char)) : List Mutation :=
  uniqKeep (rawCandidates lines)

/-- The two failure modes of `apply_mutation`: `IndexError` from the list
indexing, `ValueError` from the stale-location guard. -/
inductive ApplyError where
  | indexError
  | staleLocation
deriving DecidableEq, Repr

/-- Python list indexing: non-negative indices in range, negative indices
counted from the end, anything else an `IndexError`. -/
def pyResolve (len : Nat) (i : Int) : Option Nat :=
  if 0 ≤ i then (if i < (len : Int) then some i.toNat else none)
  else (if 0 ≤ (len : Int) + i then some ((len : Int) + i).toNat else none)

/-- `apply_mutation(lines, mu)`: resolve `line_no - 1`, check the recorded
span against `before`, and rebuild only that line. -/
def apply_mutation (lines : List (List Char)) (mu : Mutation) :
    Except ApplyError (List (List Char)) :=
  match pyResolve lines.length (mu.line_no - 1) with
  | none => .error .indexError
  | some j =>
    let line := lines.getD j []
    if pySlice line mu.col_start mu.col_end = mu.before then
      .ok (lines.set j (line.take mu.col_start ++ mu.after ++ line.drop mu.col_end))
    else .error .staleLocation

/-! ### Characterisation of the substring scan -/

theorem matchesAt_iff {line b : List Char} {i : Nat} :
    matchesAt line b i = true ↔ line.drop i = b ++ line.drop (i + b.length) := by
  unfold matchesAt pySlice
  rw [beq_iff_eq]
  have hd : i + b.length - i = b.length := by omega
  rw [hd]
  constructor
  · intro h
    conv_lhs => rw [← List.take_append_drop b.length (line.drop i)]
    rw [h, List.drop_drop]
  · intro h
    rw [h]
    exact List.take_left b _

theorem matchesAt_lt_length {line b : List Char} {i : Nat}
    (hb : b ≠ []) (h : matchesAt line b i = true) : i < line.length := by
  rw [matchesAt_iff] at h
  by_contra hge
  have hnil : line.drop i = [] := List.drop_eq_nil_of_le (by omega)
  rw [hnil] at h
  exact hb (List.append_eq_nil.mp h.symm).1

theorem filter_eq_cons_of_find? {l : List Nat} {p : Nat → Bool} {a : Nat}
    (hs : l.Pairwise (· < ·)) (h : l.find? p = some a) :
    l.filter p = a :: l.filter (fun i => p i && decide (a < i)) := by
  induction l with
  | nil => simp at h
  | cons x xs ih =>
    rw [List.pairwise_cons] at hs
    by_cases hx : p x
    · rw [List.find?_cons_of_pos _ hx] at h
      have hxa : x = a := by injection h
      subst hxa
      rw [List.filter_cons_of_pos hx, List.filter_cons_of_neg (by simp)]
      refine congrArg (x :: ·) (List.filter_congr ?_)
      intro i hi
      rw [decide_eq_true (hs.1 i hi), Bool.and_true]
    · rw [List.find?_cons_of_neg _ hx] at h
      rw [List.filter_cons_of_neg (by simp [hx]), List.filter_cons_of_neg (by simp [hx])]
      exact ih hs.2 h

/-- Ascending list of every occurrence start `≥ start`, with its end
offset: the intended meaning of the scan loop. -/
def occList (line b : List Char) (start : Nat) : List (Nat × Nat) :=
  ((List.range (line.length + 1)).filter
      (fun i => decide (start ≤ i) && matchesAt line b i)).map
    (fun i => (i, i + b.length))

theorem findAllFrom_eq (line b : List Char) :
    ∀ fuel start, line.length + 1 ≤ fuel + start →
      findAllFrom line b start fuel = occList line b start := by
  intro fuel
  induction fuel with
  | zero =>
    intro start hfuel
    unfold occList
    rw [List.filter_eq_nil_iff.mpr ?_]
    · rfl
    · intro a ha hcontra
      rw [Bool.and_eq_true, decide_eq_true_eq] at hcontra
      rw [List.mem_range] at ha
      omega
  | succ fuel ih =>
    intro start hfuel
    rw [findAllFrom]
    split
    next hnone =>
      unfold strFind at hnone
      rw [List.find?_eq_none] at hnone
      unfold occList
      rw [List.filter_eq_nil_iff.mpr (fun a ha => hnone a ha)]
      rfl
    next idx hsome =>
      have hb := strFind_some_bounds hsome
      unfold strFind at hsome
      have hstep := filter_eq_cons_of_find? (List.pairwise_lt_range _) hsome
      unfold occList
      rw [hstep]
      rw [List.map_cons]
      refine congrArg _ ?_
      have hcong : (List.range (line.length + 1)).filter
          (fun i => (decide (start ≤ i) && matchesAt line b i) && decide (idx < i)) =
          (List.range (line.length + 1)).filter
          (fun i => decide (idx + 1 ≤ i) && matchesAt line b i) := by
        refine List.filter_congr ?_
        intro i _
        by_cases h1 : idx < i
        · have h2 : start ≤ i := by omega
          have h3 : idx + 1 ≤ i := h1
          rw [decide_eq_true h1, decide_eq_true h2, decide_eq_true h3]
          simp
        · have h3 : ¬ (idx + 1 ≤ i) := by omega
          rw [decide_eq_false h1, decide_eq_false h3]
          simp
      rw [hcong]
      exact ih (idx + 1) (by omega)

theorem find_all_substrings_eq (line b : List Char) :
    find_all_substrings line b =
      ((List.range (line.length + 1)).filter (fun i => matchesAt line b i)).map
        (fun i => (i, i + b.length)) := by
  unfold find_all_substrings
  rw [findAllFrom_eq line b (line.length + 1) 0 (by omega)]
  unfold occList
  refine congrArg _ (List.filter_congr ?_)
  intro i _
  rw [decide_eq_true (Nat.zero_le i), Bool.true_and]

theorem mem_find_all_substrings {line b : List Char} {s e : Nat} :
    (s, e) ∈ find_all_substrings line b ↔
      s ≤ line.length ∧ matchesAt line b s = true ∧ e = s + b.length := by
  rw [find_all_substrings_eq, List.mem_map]
  constructor
  · rintro ⟨i, hi, hpair⟩
    rw [List.mem_filter, List.mem_range] at hi
    obtain ⟨rfl, rfl⟩ : i = s ∧ i + b.length = e := by
      simpa [Prod.ext_iff] using hpair
    exact ⟨by omega, hi.2, rfl⟩
  · rintro ⟨hle, hm, rfl⟩
    exact ⟨s, List.mem_filter.mpr ⟨List.mem_range.mpr (by omega), hm⟩, rfl⟩

/-! ### Soundness of the CRP matcher -/

theorem drop_cons_of_getElem? {l : List Char} {i : Nat} {c : Char}
    (h : l[i]? = some c) : l.drop i = c :: l.drop (i + 1) := by
  rw [List.getElem?_eq_some] at h
  obtain ⟨hi, rfl⟩ := h
  exact List.drop_eq_getElem_cons hi

theorem mem_crpScanFrom {line : List Char} :
    ∀ {fuel pos s e : Nat} {tok : List Char},
      (s, e, tok) ∈ crpScanFrom line pos fuel → crpMatchAt line s = some (e, tok) := by
  intro fuel
  induction fuel with
  | zero =>
    intro pos s e tok h
    simp [crpScanFrom] at h
  | succ fuel ih =>
    intro pos s e tok h
    rw [crpScanFrom] at h
    split at h
    · simp at h
    · split at h
      next e' tok' hm =>
        rcases List.mem_cons.mp h with heq | htail
        · simp only [Prod.mk.injEq] at heq
          obtain ⟨rfl, rfl, rfl⟩ := heq
          exact hm
        · exact ih htail
      next hm => exact ih h

theorem crpMatchAt_sound {line : List Char} {s e : Nat} {tok : List Char}
    (h : crpMatchAt line s = some (e, tok)) :
    (tok = ['-', '1'] ∨ tok = ['0'] ∨ tok = ['1']) ∧
      e = s + tok.length ∧ line.drop s = tok ++ line.drop e := by
  unfold crpMatchAt at h
  split at h
  · split at h
    next hc =>
      simp only [Bool.and_eq_true, beq_iff_eq] at hc
      simp only [Option.some.injEq, Prod.mk.injEq] at h
      obtain ⟨rfl, rfl⟩ := h
      refine ⟨Or.inl rfl, rfl, ?_⟩
      rw [drop_cons_of_getElem? hc.1.1, drop_cons_of_getElem? hc.1.2]
      rfl
    next =>
      split at h
      next hc =>
        simp only [Bool.and_eq_true, beq_iff_eq] at hc
        simp only [Option.some.injEq, Prod.mk.injEq] at h
        obtain ⟨rfl, rfl⟩ := h
        refine ⟨Or.inr (Or.inr rfl), rfl, ?_⟩
        rw [drop_cons_of_getElem? hc.1]
        rfl
      next =>
        split at h
        next hc =>
          simp only [Bool.and_eq_true, beq_iff_eq] at hc
          simp only [Option.some.injEq, Prod.mk.injEq] at h
          obtain ⟨rfl, rfl⟩ := h
          refine ⟨Or.inr (Or.inl rfl), rfl, ?_⟩
          rw [drop_cons_of_getElem? hc.1]
          rfl
        next => exact absurd h (by simp)
  · exact absurd h (by simp)

theorem crpRep_facts {tok rep : List Char} (h : crpRep tok = some rep) :
    tok ≠ [] ∧ tok ≠ rep := by
  unfold crpRep at h
  split at h
  next h0 =>
    obtain rfl := Option.some.inj h
    subst h0
    exact ⟨by decide, by decide⟩
  next =>
    split at h
    next h1 =>
      obtain rfl := Option.some.inj h
      subst h1
      exact ⟨by decide, by decide⟩
    next =>
      split at h
      next h2 =>
        obtain rfl := Option.some.inj h
        subst h2
        exact ⟨by decide, by decide⟩
      next => exact absurd h (by simp)

/-! ### Soundness of the per-line generator -/

/-- The operator table (or CRP replacement rule) a Mutation's
`(operator, before, after)` triple belongs to. -/
def TableSpec (mu : Mutation) : Prop :=
  (mu.operator = "ROR" ∧ (mu.before, mu.after) ∈ ror_map) ∨
  (mu.operator = "LCR" ∧ (mu.before, mu.after) ∈ lcr_map) ∨
  (mu.operator = "NMC" ∧ (mu.before, mu.after) ∈ nmc_map) ∨
  (mu.operator = "AOR" ∧ (mu.before, mu.after) ∈ aor_map) ∨
  (mu.operator = "CRP" ∧ crpRep mu.before = some mu.after)

/-- Everything generation guarantees about a Mutation relative to the line
it was generated from. -/
def LineSpec (line : List Char) (mu : Mutation) : Prop :=
  line.drop mu.col_start = mu.before ++ line.drop mu.col_end ∧
  mu.col_end = mu.col_start + mu.before.length ∧
  mu.col_start < line.length ∧
  mu.before ≠ [] ∧ mu.before ≠ mu.after ∧ TableSpec mu

theorem table_entry_facts :
    (∀ p ∈ ror_map, p.1 ≠ [] ∧ p.1 ≠ p.2) ∧
    (∀ p ∈ lcr_map, p.1 ≠ [] ∧ p.1 ≠ p.2) ∧
    (∀ p ∈ nmc_map, p.1 ≠ [] ∧ p.1 ≠ p.2) ∧
    (∀ p ∈ aor_map, p.1 ≠ [] ∧ p.1 ≠ p.2) := by decide

theorem mem_tableMutations {op : String} {tbl : List (List Char × List Char)}
    {i : Int} {line : List Char} {mu : Mutation} :
    mu ∈ tableMutations op tbl i line ↔
      ∃ p ∈ tbl, ∃ s, s ≤ line.length ∧ matchesAt line p.1 s = true ∧
        mu = ⟨op, i, s, s + p.1.length, p.1, p.2⟩ := by
  unfold tableMutations
  rw [List.mem_flatMap]
  constructor
  · rintro ⟨p, hp, hmem⟩
    rw [List.mem_map] at hmem
    obtain ⟨⟨s, e⟩, hse, rfl⟩ := hmem
    rw [mem_find_all_substrings] at hse
    exact ⟨p, hp, s, hse.1, hse.2.1, by rw [hse.2.2]⟩
  · rintro ⟨p, hp, s, h1, h2, rfl⟩
    exact ⟨p, hp, List.mem_map.mpr
      ⟨(s, s + p.1.length), mem_find_all_substrings.mpr ⟨h1, h2, rfl⟩, rfl⟩⟩

theorem table_block_sound {op : String} {tbl : List (List Char × List Char)}
    {i : Int} {line : List Char} {mu : Mutation}
    (hfacts : ∀ p ∈ tbl, p.1 ≠ [] ∧ p.1 ≠ p.2)
    (h : mu ∈ tableMutations op tbl i line) :
    mu.operator = op ∧ mu.line_no = i ∧ (mu.before, mu.after) ∈ tbl ∧
      line.drop mu.col_start = mu.before ++ line.drop mu.col_end ∧
      mu.col_end = mu.col_start + mu.before.length ∧
      mu.col_start < line.length ∧ mu.before ≠ [] ∧ mu.before ≠ mu.after := by
  rw [mem_tableMutations] at h
  obtain ⟨p, hp, s, _, hm, rfl⟩ := h
  obtain ⟨hne, hnea⟩ := hfacts p hp
  refine ⟨rfl, rfl, by simpa using hp, matchesAt_iff.mp hm, rfl,
    matchesAt_lt_length hne hm, hne, hnea⟩

theorem mem_crpMutations {i : Int} {line : List Char} {mu : Mutation} :
    mu ∈ crpMutations i line ↔
      ∃ s e tok rep, (s, e, tok) ∈ crpScan line ∧ crpRep tok = some rep ∧
        mu = ⟨"CRP", i, s, e, tok, rep⟩ := by
  unfold crpMutations
  rw [List.mem_filterMap]
  constructor
  · rintro ⟨⟨s, e, tok⟩, hmem, hmap⟩
    rw [Option.map_eq_some'] at hmap
    obtain ⟨rep, hrep, rfl⟩ := hmap
    exact ⟨s, e, tok, rep, hmem, hrep, rfl⟩
  · rintro ⟨s, e, tok, rep, hmem, hrep, rfl⟩
    exact ⟨(s, e, tok), hmem, by rw [hrep]; rfl⟩

theorem crp_block_sound {i : Int} {line : List Char} {mu : Mutation}
    (h : mu ∈ crpMutations i line) :
    mu.operator = "CRP" ∧ mu.line_no = i ∧ crpRep mu.before = some mu.after ∧
      line.drop mu.col_start = mu.before ++ line.drop mu.col_end ∧
      mu.col_end = mu.col_start + mu.before.length ∧
      mu.col_start < line.length ∧ mu.before ≠ [] ∧ mu.before ≠ mu.after := by
  rw [mem_crpMutations] at h
  obtain ⟨s, e, tok, rep, hmem, hrep, rfl⟩ := h
  obtain ⟨_, he, hdrop⟩ := crpMatchAt_sound (mem_crpScanFrom hmem)
  obtain ⟨hne, hner⟩ := crpRep_facts hrep
  have hm : matchesAt line tok s = true := by
    rw [matchesAt_iff, ← he]
    exact hdrop
  exact ⟨rfl, rfl, hrep, hdrop, he, matchesAt_lt_length hne hm, hne, hner⟩

theorem mutationsForLine_sound {i : Int} {line : List Char} {mu : Mutation}
    (h : mu ∈ mutationsForLine i line) : mu.line_no = i ∧ LineSpec line mu := by
  unfold mutationsForLine at h
  obtain ⟨hror, hlcr, hnmc, haor⟩ := table_entry_facts
  rcases List.mem_append.mp h with h | h5
  rcases List.mem_append.mp h with h | h4
  rcases List.mem_append.mp h with h | h3
  rcases List.mem_append.mp h with h1 | h2
  · obtain ⟨hop, hln, htbl, hd, hce, hcs, hne, hnea⟩ := table_block_sound hror h1
    exact ⟨hln, hd, hce, hcs, hne, hnea, Or.inl ⟨hop, htbl⟩⟩
  · obtain ⟨hop, hln, htbl, hd, hce, hcs, hne, hnea⟩ := table_block_sound hlcr h2
    exact ⟨hln, hd, hce, hcs, hne, hnea, Or.inr (Or.inl ⟨hop, htbl⟩)⟩
  · obtain ⟨hop, hln, htbl, hd, hce, hcs, hne, hnea⟩ := table_block_sound hnmc h3
    exact ⟨hln, hd, hce, hcs, hne, hnea, Or.inr (Or.inr (Or.inl ⟨hop, htbl⟩))⟩
  · obtain ⟨hop, hln, htbl, hd, hce, hcs, hne, hnea⟩ := table_block_sound haor h4
    exact ⟨hln, hd, hce, hcs, hne, hnea, Or.inr (Or.inr (Or.inr (Or.inl ⟨hop, htbl⟩)))⟩
  · obtain ⟨hop, hln, hrep, hd, hce, hcs, hne, hnea⟩ := crp_block_sound h5
    exact ⟨hln, hd, hce, hcs, hne, hnea, Or.inr (Or.inr (Or.inr (Or.inr ⟨hop, hrep⟩)))⟩

theorem rawFrom_sound {k : Int} {ls : List (List Char)} {mu : Mutation}
    (h : mu ∈ rawFrom k ls) :
    ∃ (j : Nat) (line : List Char),
      ls[j]? = some line ∧ mu ∈ mutationsForLine (k + (j : Int)) line := by
  induction ls generalizing k with
  | nil => simp [rawFrom] at h
  | cons l rest ih =>
    rcases List.mem_append.mp h with h1 | h2
    · exact ⟨0, l, by simp, by simpa using h1⟩
    · obtain ⟨j, line, hj, hmem⟩ := ih h2
      refine ⟨j + 1, line, by simpa using hj, ?_⟩
      have harith : k + 1 + (j : Int) = k + ((j + 1 : Nat) : Int) := by push_cast; ring
      rw [← harith]
      exact hmem

theorem rawFrom_complete {k : Int} {ls : List (List Char)} {j : Nat} {line : List Char}
    {mu : Mutation} (hj : ls[j]? = some line)
    (h : mu ∈ mutationsForLine (k + (j : Int)) line) : mu ∈ rawFrom k ls := by
  induction ls generalizing k j with
  | nil => simp at hj
  | cons l rest ih =>
    cases j with
    | zero =>
      obtain rfl : l = line := by simpa using hj
      exact List.mem_append_left _ (by simpa using h)
    | succ j' =>
      refine List.mem_append_right _ (ih (by simpa using hj) ?_)
      have harith : k + 1 + (j' : Int) = k + ((j' + 1 : Nat) : Int) := by push_cast; ring
      rw [harith]
      exact h

/-! ### The deduplication pass -/

/-- Keep the first occurrence of each element, in first-occurrence order:
the intended meaning of the `uniq` dict pass. -/
def keepFirstOccurrences : List Mutation → List Mutation
  | [] => []
  | mu :: rest => mu :: keepFirstOccurrences (rest.filter (fun x => decide (x ≠ mu)))
termination_by l => l.length
decreasing_by
  have := List.length_filter_le (fun x => decide (x ≠ mu)) rest
  simp only [List.length_cons]
  omega

theorem keepFirstOccurrences_nil : keepFirstOccurrences [] = [] := by
  rw [keepFirstOccurrences]

theorem keepFirstOccurrences_cons (mu : Mutation) (rest : List Mutation) :
    keepFirstOccurrences (mu :: rest) =
      mu :: keepFirstOccurrences (rest.filter (fun x => decide (x ≠ mu))) := by
  rw [keepFirstOccurrences]

theorem uniqKeep_go (l : List Mutation) :
    ∀ acc : List Mutation,
      l.foldl (fun acc mu => if mu ∈ acc then acc else acc ++ [mu]) acc =
        acc ++ keepFirstOccurrences (l.filter (fun x => decide (x ∉ acc))) := by
  induction l with
  | nil =>
    intro acc
    simp [keepFirstOccurrences_nil]
  | cons x xs ih =>
    intro acc
    rw [List.foldl_cons]
    by_cases hx : x ∈ acc
    · rw [if_pos hx, ih acc, List.filter_cons_of_neg (by simp [hx])]
    · rw [if_neg hx, ih (acc ++ [x]), List.filter_cons_of_pos (by simp [hx]),
        keepFirstOccurrences_cons, List.append_assoc, List.singleton_append]
      congr 2
      rw [List.filter_filter]
      refine congrArg keepFirstOccurrences (List.filter_congr ?_)
      intro b _
      by_cases h1 : b = x
      · subst h1
        simp
      · by_cases h2 : b ∈ acc <;> simp [List.mem_append, h1, h2]

theorem uniqKeep_eq (l : List Mutation) : uniqKeep l = keepFirstOccurrences l := by
  unfold uniqKeep
  rw [uniqKeep_go, List.nil_append]
  congr 1
  refine List.filter_eq_self.mpr ?_
  intro a _
  simp

theorem mem_keepFirstOccurrences {x : Mutation} {l : List Mutation} :
    x ∈ keepFirstOccurrences l ↔ x ∈ l := by
  induction l using keepFirstOccurrences.induct with
  | case1 => simp [keepFirstOccurrences_nil]
  | case2 mu rest ih =>
    rw [keepFirstOccurrences_cons, List.mem_cons, List.mem_cons, ih]
    constructor
    · rintro (rfl | hf)
      · exact Or.inl rfl
      · exact Or.inr (List.mem_of_mem_filter hf)
    · rintro (rfl | hr)
      · exact Or.inl rfl
      · by_cases hxm : x = mu
        · exact Or.inl hxm
        · exact Or.inr (List.mem_filter.mpr ⟨hr, by simp [hxm]⟩)

theorem nodup_keepFirstOccurrences (l : List Mutation) :
    (keepFirstOccurrences l).Nodup := by
  induction l using keepFirstOccurrences.induct with
  | case1 => simp [keepFirstOccurrences_nil]
  | case2 mu rest ih =>
    rw [keepFirstOccurrences_cons]
    refine List.nodup_cons.mpr ⟨?_, ih⟩
    intro hmem
    have hfil := mem_keepFirstOccurrences.mp hmem
    exact absurd (List.mem_filter.mp hfil).2 (by simp)

theorem mem_generate_iff {lines : List (List Char)} {mu : Mutation} :
    mu ∈ generate_mutation_candidates lines ↔ mu ∈ rawCandidates lines := by
  unfold generate_mutation_candidates
  rw [uniqKeep_eq, mem_keepFirstOccurrences]

/-! ### Evaluating the applier -/

theorem pyResolve_natCast {len j : Nat} (hj : j < len) :
    pyResolve len (j : Int) = some j := by
  unfold pyResolve
  rw [if_pos (by omega), if_pos (by exact_mod_cast hj)]
  rw [Int.toNat_ofNat]

theorem pyResolve_neg_one {len : Nat} (hlen : 0 < len) :
    pyResolve len (-1) = some (len - 1) := by
  unfold pyResolve
  rw [if_neg (by omega), if_pos (by omega)]
  congr 1
  omega

theorem pyResolve_none_of_ge {len : Nat} {i : Int} (h1 : 0 ≤ i) (h2 : (len : Int) ≤ i) :
    pyResolve len i = none := by
  unfold pyResolve
  rw [if_pos h1, if_neg (by omega)]

theorem apply_mutation_eval {lines : List (List Char)} {mu : Mutation} {j : Nat}
    {line : List Char} (hj : lines[j]? = some line) (hidx : mu.line_no - 1 = (j : Int)) :
    apply_mutation lines mu =
      if pySlice line mu.col_start mu.col_end = mu.before
      then .ok (lines.set j (line.take mu.col_start ++ mu.after ++ line.drop mu.col_end))
      else .error .staleLocation := by
  have hjlen : j < lines.length := by
    rcases List.getElem?_eq_some.mp hj with ⟨hlt, _⟩
    exact hlt
  unfold apply_mutation
  rw [hidx]
  have hgetd : lines.getD j [] = line := by
    rw [List.getD_eq_getElem?_getD, hj]
    rfl
  simp only [pyResolve_natCast hjlen, hgetd]

theorem slice_of_decomp {line b : List Char} {cs ce : Nat}
    (hd : line.drop cs = b ++ line.drop ce) (hce : ce = cs + b.length) :
    pySlice line cs ce = b := by
  unfold pySlice
  rw [hd]
  have h1 : ce - cs = b.length := by omega
  rw [h1]
  exact List.take_left' rfl

/-! ### Claims about generation and application -/

def sampleLines : List (List Char) := ["if x == 1:\n".toList]

def sampleMu : Mutation := ⟨"ROR", 1, 4, 8, " == ".toList, " != ".toList⟩

/-- C1: for every line sequence `lines` and every Mutation `m` in the list
returned by `generate_mutation_candidates lines`, the text
`lines[m.line_no-1][m.col_start:m.col_end]` equals `m.before`. -/
theorem claim_C1_generated_span_matches (lines : List (List Char)) (mu : Mutation)
    (h : mu ∈ generate_mutation_candidates lines) :
    ∃ line, lines[(mu.line_no - 1).toNat]? = some line ∧
      pySlice line mu.col_start mu.col_end = mu.before := by
  obtain ⟨j, line, hj, hmem⟩ := rawFrom_sound (mem_generate_iff.mp h)
  obtain ⟨hln, hd, hce, _, _, _, _⟩ := mutationsForLine_sound hmem
  have hjn : (mu.line_no - 1).toNat = j := by rw [hln]; omega
  rw [hjn]
  exact ⟨line, hj, slice_of_decomp hd hce⟩

theorem claim_C1_witness :
    sampleMu ∈ generate_mutation_candidates sampleLines ∧
    ∃ line, sampleLines[(sampleMu.line_no - 1).toNat]? = some line ∧
      pySlice line sampleMu.col_start sampleMu.col_end = sampleMu.before :=
  ⟨by decide, claim_C1_generated_span_matches sampleLines sampleMu (by decide)⟩

def staleLines : List (List Char) := [['a', 'b', 'c']]

def staleMu : Mutation := ⟨"ROR", 1, 0, 2, ['x', 'y'], ['q']⟩

/-- C2: for a Mutation whose `line_no` is in range, `apply_mutation` raises
the stale-location error exactly when the text at the recorded span differs
from `before` (the embedding is pure, so the input sequence is never
modified on any path). -/
theorem claim_C2_stale_iff (lines : List (List Char)) (mu : Mutation) (line : List Char)
    (h1 : 1 ≤ mu.line_no) (h2 : mu.line_no ≤ (lines.length : Int))
    (hline : lines[(mu.line_no - 1).toNat]? = some line) :
    (apply_mutation lines mu = .error .staleLocation ↔
      pySlice line mu.col_start mu.col_end ≠ mu.before) := by
  have hidx : mu.line_no - 1 = ((mu.line_no - 1).toNat : Int) := by omega
  rw [apply_mutation_eval hline hidx]
  by_cases hslice : pySlice line mu.col_start mu.col_end = mu.before
  · rw [if_pos hslice]
    simp [hslice]
  · rw [if_neg hslice]
    simp [hslice]

theorem claim_C2_witness :
    apply_mutation staleLines staleMu = .error .staleLocation ↔
      pySlice ['a', 'b', 'c'] staleMu.col_start staleMu.col_end ≠ staleMu.before :=
  claim_C2_stale_iff staleLines staleMu ['a', 'b', 'c']
    (by decide) (by decide) (by decide)

/-- C3: applying any generated Mutation succeeds and returns a sequence of
the same length in which exactly the line at index `line_no` (1-indexed)
differs, its span `[col_start, col_end)` replaced by `after`; every other
line is returned unchanged. -/
theorem claim_C3_apply_frame (lines : List (List Char)) (mu : Mutation)
    (h : mu ∈ generate_mutation_candidates lines) :
    ∃ res, apply_mutation lines mu = .ok res ∧
      res.length = lines.length ∧
      (∀ k : Nat, k ≠ (mu.line_no - 1).toNat → res[k]? = lines[k]?) ∧
      res[(mu.line_no - 1).toNat]? ≠ lines[(mu.line_no - 1).toNat]? ∧
      ∃ line, lines[(mu.line_no - 1).toNat]? = some line ∧
        res[(mu.line_no - 1).toNat]? =
          some (line.take mu.col_start ++ mu.after ++ line.drop mu.col_end) := by
  obtain ⟨j, line, hj, hmem⟩ := rawFrom_sound (mem_generate_iff.mp h)
  obtain ⟨hln, hd, hce, _, _, hnea, _⟩ := mutationsForLine_sound hmem
  have hjn : (mu.line_no - 1).toNat = j := by rw [hln]; omega
  have hidx : mu.line_no - 1 = (j : Int) := by rw [hln]; omega
  have hjlen : j < lines.length := by
    rcases List.getElem?_eq_some.mp hj with ⟨hlt, _⟩
    exact hlt
  have happ := apply_mutation_eval hj hidx
  rw [if_pos (slice_of_decomp hd hce)] at happ
  refine ⟨_, happ, List.length_set .., ?_, ?_, ?_⟩
  · intro k hk
    rw [hjn] at hk
    exact List.getElem?_set_ne (fun hkj => hk hkj.symm)
  · rw [hjn, List.getElem?_set_self hjlen, hj]
    intro hcontra
    have hlineeq := Option.some.inj hcontra
    have hsplit : line = line.take mu.col_start ++ (mu.before ++ line.drop mu.col_end) := by
      conv_lhs => rw [← List.take_append_drop mu.col_start line]
      rw [hd]
    have hchain := hlineeq.trans hsplit
    rw [List.append_assoc] at hchain
    have h2 := List.append_cancel_left hchain
    have h3 := List.append_cancel_right h2
    exact hnea h3.symm
  · rw [hjn]
    exact ⟨line, hj, List.getElem?_set_self hjlen⟩

theorem claim_C3_witness :
    ∃ res, apply_mutation sampleLines sampleMu = .ok res ∧
      res.length = sampleLines.length ∧
      (∀ k : Nat, k ≠ (sampleMu.line_no - 1).toNat → res[k]? = sampleLines[k]?) ∧
      res[(sampleMu.line_no - 1).toNat]? ≠ sampleLines[(sampleMu.line_no - 1).toNat]? ∧
      ∃ line, sampleLines[(sampleMu.line_no - 1).toNat]? = some line ∧
        res[(sampleMu.line_no - 1).toNat]? =
          some (line.take sampleMu.col_start ++ sampleMu.after ++
            line.drop sampleMu.col_end) :=
  claim_C3_apply_frame sampleLines sampleMu (by decide)

def mu10a : Mutation := ⟨"CRP", 0, 0, 1, ['a'], ['z']⟩

def mu10b : Mutation := ⟨"CRP", 5, 0, 1, ['a'], ['z']⟩

/-- C10: `apply_mutation` validates only the span text, never the line
number's range: with `line_no = 0` it checks and edits the last line of the
sequence (Python negative indexing) instead of failing, and with `line_no`
greater than the sequence length it raises the index error, not the
stale-location error. -/
theorem claim_C10_line_no_unvalidated (lines : List (List Char)) (mu : Mutation) :
    (mu.line_no = 0 → ∀ l, lines[lines.length - 1]? = some l →
      ((pySlice l mu.col_start mu.col_end = mu.before →
          apply_mutation lines mu =
            .ok (lines.set (lines.length - 1)
              (l.take mu.col_start ++ mu.after ++ l.drop mu.col_end))) ∧
        (pySlice l mu.col_start mu.col_end ≠ mu.before →
          apply_mutation lines mu = .error .staleLocation))) ∧
    ((lines.length : Int) < mu.line_no →
      apply_mutation lines mu = .error .indexError) := by
  constructor
  · intro h0 l hl
    have hlen : 0 < lines.length := by
      rcases List.getElem?_eq_some.mp hl with ⟨hlt, _⟩
      omega
    have hres : pyResolve lines.length (mu.line_no - 1) = some (lines.length - 1) := by
      rw [h0]
      exact pyResolve_neg_one hlen
    have hgetd : lines.getD (lines.length - 1) [] = l := by
      rw [List.getD_eq_getElem?_getD, hl]
      rfl
    unfold apply_mutation
    simp only [hres, hgetd]
    constructor
    · intro hs
      rw [if_pos hs]
    · intro hs
      rw [if_neg hs]
  · intro hgt
    unfold apply_mutation
    rw [pyResolve_none_of_ge (by omega) (by omega)]

theorem claim_C10_witness :
    apply_mutation [['a']] mu10a =
      .ok ([['a']].set 0 ((['a'].take 0) ++ mu10a.after ++ (['a'].drop 1))) ∧
    apply_mutation [['a']] mu10b = .error .indexError :=
  ⟨((claim_C10_line_no_unvalidated [['a']] mu10a).1 rfl ['a'] (by decide)).1 (by decide),
   (claim_C10_line_no_unvalidated [['a']] mu10b).2 (by decide)⟩

/-- C4: the returned list contains no two Mutations with equal
`(operator, line_no, col_start, col_end, before, after)` tuples (for the
record that tuple is the whole value), and it orders each distinct tuple at
the position of its first occurrence in the raw emission order. -/
theorem claim_C4_dedup_first_occurrence (lines : List (List Char)) :
    (generate_mutation_candidates lines).Nodup ∧
      generate_mutation_candidates lines =
        keepFirstOccurrences (rawCandidates lines) := by
  unfold generate_mutation_candidates
  rw [uniqKeep_eq]
  exact ⟨nodup_keepFirstOccurrences _, rfl⟩

/-- C6: every token the boundary-aware CRP matcher produces is exactly one
of `-1`, `0`, `1`, so the fixed replacement rule is total over the matcher's
output and the fall-through `continue` branch is never reached. -/
theorem claim_C6_crp_tokens_total (line : List Char) (s e : Nat) (tok : List Char)
    (h : (s, e, tok) ∈ crpScan line) :
    (tok = ['-', '1'] ∨ tok = ['0'] ∨ tok = ['1']) ∧ (crpRep tok).isSome = true := by
  have hm := crpMatchAt_sound (mem_crpScanFrom h)
  rcases hm.1 with h1 | h1 | h1
  · subst h1
    exact ⟨Or.inl rfl, by decide⟩
  · subst h1
    exact ⟨Or.inr (Or.inl rfl), by decide⟩
  · subst h1
    exact ⟨Or.inr (Or.inr rfl), by decide⟩

theorem claim_C6_witness :
    ((8, 9, ['1']) ∈ crpScan "if x == 1:\n".toList) ∧
      ((['1'] = ['-', '1'] ∨ ['1'] = ['0'] ∨ ['1'] = ['1']) ∧
        (crpRep ['1']).isSome = true) :=
  ⟨by decide, claim_C6_crp_tokens_total "if x == 1:\n".toList 8 9 ['1'] (by decide)⟩

/-! ### Completeness of the table scan (claim C7) -/

/-- The non-CRP operator tables in the order the generator consults them. -/
def catalog : List (String × List (List Char × List Char)) :=
  [("ROR", ror_map), ("LCR", lcr_map), ("NMC", nmc_map), ("AOR", aor_map)]

theorem tableMutations_op {op : String} {tbl : List (List Char × List Char)}
    {i : Int} {line : List Char} {mu : Mutation}
    (h : mu ∈ tableMutations op tbl i line) : mu.operator = op := by
  rw [mem_tableMutations] at h
  obtain ⟨p, _, s, _, _, rfl⟩ := h
  rfl

theorem crpMutations_op {i : Int} {line : List Char} {mu : Mutation}
    (h : mu ∈ crpMutations i line) : mu.operator = "CRP" := by
  rw [mem_crpMutations] at h
  obtain ⟨s, e, tok, rep, _, _, rfl⟩ := h
  rfl

theorem tableMutations_extract {op : String} {tbl : List (List Char × List Char)}
    {n : Int} {line b a : List Char} {i : Nat}
    (h : Mutation.mk op n i (i + b.length) b a ∈ tableMutations op tbl n line) :
    matchesAt line b i = true := by
  rw [mem_tableMutations] at h
  obtain ⟨p, hp, s, hs, hm, heq⟩ := h
  simp only [Mutation.mk.injEq] at heq
  obtain ⟨-, -, rfl, -, rfl, rfl⟩ := heq
  exact hm

theorem tableMutations_complete {op : String} {tbl : List (List Char × List Char)}
    {n : Int} {line b a : List Char} {i : Nat}
    (hentry : (b, a) ∈ tbl) (hne : b ≠ []) (hm : matchesAt line b i = true) :
    Mutation.mk op n i (i + b.length) b a ∈ tableMutations op tbl n line :=
  mem_tableMutations.mpr
    ⟨(b, a), hentry, i, Nat.le_of_lt (matchesAt_lt_length hne hm), hm, rfl⟩

/-- C7: for every line, every operator table except CRP, and every table
entry `(before, after)`, the generator emits a Mutation for start index `i`
exactly when `line[i:i+len(before)] == before`; the resumption at `i + 1`
means every start position, overlapping occurrences included, is tried. -/
theorem claim_C7_every_occurrence (line : List Char) (n : Int) (op : String)
    (tbl : List (List Char × List Char)) (b a : List Char) (i : Nat)
    (hcat : (op, tbl) ∈ catalog) (hentry : (b, a) ∈ tbl) :
    (Mutation.mk op n i (i + b.length) b a ∈ mutationsForLine n line ↔
      pySlice line i (i + b.length) = b) := by
  obtain ⟨hror, hlcr, hnmc, haor⟩ := table_entry_facts
  have hmAt : (matchesAt line b i = true) ↔ pySlice line i (i + b.length) = b := by
    unfold matchesAt
    rw [beq_iff_eq]
  simp only [catalog, List.mem_cons, List.mem_singleton, Prod.mk.injEq] at hcat
  unfold mutationsForLine
  rcases hcat with ⟨rfl, rfl⟩ | ⟨rfl, rfl⟩ | ⟨rfl, rfl⟩ | ⟨rfl, rfl⟩ | hnil
  · constructor
    · intro h
      rcases List.mem_append.mp h with h | h5
      rcases List.mem_append.mp h with h | h4
      rcases List.mem_append.mp h with h | h3
      rcases List.mem_append.mp h with h1 | h2
      · exact hmAt.mp (tableMutations_extract h1)
      · exact absurd (tableMutations_op h2) (by exact (by decide : ("ROR" : String) ≠ "LCR"))
      · exact absurd (tableMutations_op h3) (by exact (by decide : ("ROR" : String) ≠ "NMC"))
      · exact absurd (tableMutations_op h4) (by exact (by decide : ("ROR" : String) ≠ "AOR"))
      · exact absurd (crpMutations_op h5) (by exact (by decide : ("ROR" : String) ≠ "CRP"))
    · intro h
      refine List.mem_append_left _ (List.mem_append_left _
        (List.mem_append_left _ (List.mem_append_left _ ?_)))
      exact tableMutations_complete hentry (hror (b, a) hentry).1 (hmAt.mpr h)
  · constructor
    · intro h
      rcases List.mem_append.mp h with h | h5
      rcases List.mem_append.mp h with h | h4
      rcases List.mem_append.mp h with h | h3
      rcases List.mem_append.mp h with h1 | h2
      · exact absurd (tableMutations_op h1) (by exact (by decide : ("LCR" : String) ≠ "ROR"))
      · exact hmAt.mp (tableMutations_extract h2)
      · exact absurd (tableMutations_op h3) (by exact (by decide : ("LCR" : String) ≠ "NMC"))
      · exact absurd (tableMutations_op h4) (by exact (by decide : ("LCR" : String) ≠ "AOR"))
      · exact absurd (crpMutations_op h5) (by exact (by decide : ("LCR" : String) ≠ "CRP"))
    · intro h
      refine List.mem_append_left _ (List.mem_append_left _
        (List.mem_append_left _ (List.mem_append_right _ ?_)))
      exact tableMutations_complete hentry (hlcr (b, a) hentry).1 (hmAt.mpr h)
  · constructor
    · intro h
      rcases List.mem_append.mp h with h | h5
      rcases List.mem_append.mp h with h | h4
      rcases List.mem_append.mp h with h | h3
      rcases List.mem_append.mp h with h1 | h2
      · exact absurd (tableMutations_op h1) (by exact (by decide : ("NMC" : String) ≠ "ROR"))
      · exact absurd (tableMutations_op h2) (by exact (by decide : ("NMC" : String) ≠ "LCR"))
      · exact hmAt.mp (tableMutations_extract h3)
      · exact absurd (tableMutations_op h4) (by exact (by decide : ("NMC" : String) ≠ "AOR"))
      · exact absurd (crpMutations_op h5) (by exact (by decide : ("NMC" : String) ≠ "CRP"))
    · intro h
      refine List.mem_append_left _ (List.mem_append_left _
        (List.mem_append_right _ ?_))
      exact tableMutations_complete hentry (hnmc (b, a) hentry).1 (hmAt.mpr h)
  · constructor
    · intro h
      rcases List.mem_append.mp h with h | h5
      rcases List.mem_append.mp h with h | h4
      rcases List.mem_append.mp h with h | h3
      rcases List.mem_append.mp h with h1 | h2
      · exact absurd (tableMutations_op h1) (by exact (by decide : ("AOR" : String) ≠ "ROR"))
      · exact absurd (tableMutations_op h2) (by exact (by decide : ("AOR" : String) ≠ "LCR"))
      · exact absurd (tableMutations_op h3) (by exact (by decide : ("AOR" : String) ≠ "NMC"))
      · exact hmAt.mp (tableMutations_extract h4)
      · exact absurd (crpMutations_op h5) (by exact (by decide : ("AOR" : String) ≠ "CRP"))
    · intro h
      refine List.mem_append_left _ (List.mem_append_right _ ?_)
      exact tableMutations_complete hentry (haor (b, a) hentry).1 (hmAt.mpr h)
  · exact absurd hnil (List.not_mem_nil _)

theorem claim_C7_witness :
    ("ROR", ror_map) ∈ catalog ∧ (" == ".toList, " != ".toList) ∈ ror_map ∧
      (Mutation.mk "ROR" 1 1 (1 + " == ".toList.length) " == ".toList " != ".toList ∈
          mutationsForLine 1 "a == b == c".toList ↔
        pySlice "a == b == c".toList 1 (1 + " == ".toList.length) = " == ".toList) :=
  ⟨by decide, by decide,
    claim_C7_every_occurrence "a == b == c".toList 1 "ROR" ror_map
      " == ".toList " != ".toList 1 (by decide) (by decide)⟩

/-! ### Reversibility of the symmetric operator families (claim C5) -/

theorem swap_tables :
    (∀ p ∈ ror_map, ((p.2, p.1) ∈ ror_map ∧ p.2 ≠ [])) ∧
    (∀ p ∈ lcr_map, ((p.2, p.1) ∈ lcr_map ∧ p.2 ≠ [])) ∧
    (∀ p ∈ nmc_map, ((p.2, p.1) ∈ nmc_map ∧ p.2 ≠ [])) := by decide

theorem reversible_core {lines res : List (List Char)} {mu : Mutation} {j : Nat}
    {line : List Char} {op : String} {tbl : List (List Char × List Char)}
    (hj : lines[j]? = some line) (hln : mu.line_no = 1 + (j : Int))
    (hd : line.drop mu.col_start = mu.before ++ line.drop mu.col_end)
    (hce : mu.col_end = mu.col_start + mu.before.length)
    (hcs : mu.col_start < line.length)
    (ht : (mu.after, mu.before) ∈ tbl)
    (hafter : mu.after ≠ [])
    (hinj : ∀ (i : Int) (l : List Char) (m : Mutation),
      m ∈ tableMutations op tbl i l → m ∈ mutationsForLine i l)
    (happ : apply_mutation lines mu = .ok res) :
    ∃ mu', mu' ∈ generate_mutation_candidates res ∧ mu'.operator = op ∧
      mu'.line_no = mu.line_no ∧ mu'.col_start = mu.col_start ∧
      mu'.col_end = mu.col_start + mu.after.length ∧
      mu'.before = mu.after ∧ mu'.after = mu.before := by
  have hjlen : j < lines.length := by
    rcases List.getElem?_eq_some.mp hj with ⟨hlt, _⟩
    exact hlt
  have hidx : mu.line_no - 1 = (j : Int) := by rw [hln]; omega
  have happ2 := apply_mutation_eval hj hidx
  rw [if_pos (slice_of_decomp hd hce), happ] at happ2
  have hres : res =
      lines.set j (line.take mu.col_start ++ mu.after ++ line.drop mu.col_end) :=
    Except.ok.inj happ2
  have htake : (line.take mu.col_start).length = mu.col_start := by
    rw [List.length_take]
    omega
  have hdropnl :
      (line.take mu.col_start ++ mu.after ++ line.drop mu.col_end).drop mu.col_start =
        mu.after ++ line.drop mu.col_end := by
    rw [List.append_assoc]
    exact List.drop_left' htake
  have hdropnl2 :
      (line.take mu.col_start ++ mu.after ++ line.drop mu.col_end).drop
          (mu.col_start + mu.after.length) =
        line.drop mu.col_end :=
    List.drop_left' (by rw [List.length_append, htake])
  have hmatch : matchesAt (line.take mu.col_start ++ mu.after ++ line.drop mu.col_end)
      mu.after mu.col_start = true := by
    rw [matchesAt_iff, hdropnl, hdropnl2]
  have hmem' : Mutation.mk op mu.line_no mu.col_start (mu.col_start + mu.after.length)
      mu.after mu.before ∈
        tableMutations op tbl mu.line_no
          (line.take mu.col_start ++ mu.after ++ line.drop mu.col_end) :=
    tableMutations_complete ht hafter hmatch
  have hjres : res[j]? =
      some (line.take mu.col_start ++ mu.after ++ line.drop mu.col_end) := by
    rw [hres]
    exact List.getElem?_set_self hjlen
  have hraw : Mutation.mk op mu.line_no mu.col_start (mu.col_start + mu.after.length)
      mu.after mu.before ∈ rawCandidates res := by
    refine rawFrom_complete hjres ?_
    rw [← hln]
    exact hinj mu.line_no _ _ hmem'
  exact ⟨_, mem_generate_iff.mpr hraw, rfl, rfl, rfl, rfl, rfl, rfl⟩

/-- C5: for every generated Mutation with operator ROR, LCR or NMC,
re-scanning the mutated sequence surfaces a Mutation at the same line and
start column whose `before`/`after` are the original pair swapped — the
transformation is locally invertible. -/
theorem claim_C5_locally_invertible (lines : List (List Char)) (mu : Mutation)
    (res : List (List Char)) (h : mu ∈ generate_mutation_candidates lines)
    (hop : mu.operator = "ROR" ∨ mu.operator = "LCR" ∨ mu.operator = "NMC")
    (happ : apply_mutation lines mu = .ok res) :
    ∃ mu', mu' ∈ generate_mutation_candidates res ∧ mu'.operator = mu.operator ∧
      mu'.line_no = mu.line_no ∧ mu'.col_start = mu.col_start ∧
      mu'.col_end = mu.col_start + mu.after.length ∧
      mu'.before = mu.after ∧ mu'.after = mu.before := by
  obtain ⟨j, line, hj, hmem⟩ := rawFrom_sound (mem_generate_iff.mp h)
  obtain ⟨hln, hd, hce, hcs, hne, hnea, hts⟩ := mutationsForLine_sound hmem
  obtain ⟨hsr, hsl, hsn⟩ := swap_tables
  rcases hop with hop | hop | hop
  · have htbl : (mu.before, mu.after) ∈ ror_map := by
      rcases hts with ⟨ho, ht⟩ | ⟨ho, ht⟩ | ⟨ho, ht⟩ | ⟨ho, ht⟩ | ⟨ho, ht⟩
      · exact ht
      · exact absurd (hop.symm.trans ho) (by decide)
      · exact absurd (hop.symm.trans ho) (by decide)
      · exact absurd (hop.symm.trans ho) (by decide)
      · exact absurd (hop.symm.trans ho) (by decide)
    obtain ⟨mu', h1, h2, h3, h4, h5, h6, h7⟩ :=
      reversible_core hj hln hd hce hcs (hsr _ htbl).1 (hsr _ htbl).2
        (by
          intro i l m hm
          unfold mutationsForLine
          exact List.mem_append_left _ (List.mem_append_left _
            (List.mem_append_left _ (List.mem_append_left _ hm))))
        happ
    exact ⟨mu', h1, h2.trans hop.symm, h3, h4, h5, h6, h7⟩
  · have htbl : (mu.before, mu.after) ∈ lcr_map := by
      rcases hts with ⟨ho, ht⟩ | ⟨ho, ht⟩ | ⟨ho, ht⟩ | ⟨ho, ht⟩ | ⟨ho, ht⟩
      · exact absurd (hop.symm.trans ho) (by decide)
      · exact ht
      · exact absurd (hop.symm.trans ho) (by decide)
      · exact absurd (hop.symm.trans ho) (by decide)
      · exact absurd (hop.symm.trans ho) (by decide)
    obtain ⟨mu', h1, h2, h3, h4, h5, h6, h7⟩ :=
      reversible_core hj hln hd hce hcs (hsl _ htbl).1 (hsl _ htbl).2
        (by
          intro i l m hm
          unfold mutationsForLine
          exact List.mem_append_left _ (List.mem_append_left _
            (List.mem_append_left _ (List.mem_append_right _ hm))))
        happ
    exact ⟨mu', h1, h2.trans hop.symm, h3, h4, h5, h6, h7⟩
  · have htbl : (mu.before, mu.after) ∈ nmc_map := by
      rcases hts with ⟨ho, ht⟩ | ⟨ho, ht⟩ | ⟨ho, ht⟩ | ⟨ho, ht⟩ | ⟨ho, ht⟩
      · exact absurd (hop.symm.trans ho) (by decide)
      · exact absurd (hop.symm.trans ho) (by decide)
      · exact ht
      · exact absurd (hop.symm.trans ho) (by decide)
      · exact absurd (hop.symm.trans ho) (by decide)
    obtain ⟨mu', h1, h2, h3, h4, h5, h6, h7⟩ :=
      reversible_core hj hln hd hce hcs (hsn _ htbl).1 (hsn _ htbl).2
        (by
          intro i l m hm
          unfold mutationsForLine
          exact List.mem_append_left _ (List.mem_append_left _
            (List.mem_append_right _ hm)))
        happ
    exact ⟨mu', h1, h2.trans hop.symm, h3, h4, h5, h6, h7⟩

theorem claim_C5_witness :
    ∃ mu', mu' ∈ generate_mutation_candidates ["if x != 1:\n".toList] ∧
      mu'.operator = sampleMu.operator ∧ mu'.line_no = sampleMu.line_no ∧
      mu'.col_start = sampleMu.col_start ∧
      mu'.col_end = sampleMu.col_start + sampleMu.after.length ∧
      mu'.before = sampleMu.after ∧ mu'.after = sampleMu.before :=
  claim_C5_locally_invertible sampleLines sampleMu ["if x != 1:\n".toList]
    (by decide) (by decide) (by rfl)

/-! ### Emission order (claim C9) -/

/-- Catalog position of an operator name (ROR, LCR, NMC, AOR, CRP). -/
def tableRank (op : String) : Nat :=
  if op = "ROR" then 0
  else if op = "LCR" then 1
  else if op = "NMC" then 2
  else if op = "AOR" then 3
  else 4

/-- The lexicographic order the claim asserts of the raw emission: table
factor outermost, then line, then within-line position. -/
def claimKeyLe (m1 m2 : Mutation) : Prop :=
  tableRank m1.operator < tableRank m2.operator ∨
    (tableRank m1.operator = tableRank m2.operator ∧
      (m1.line_no < m2.line_no ∨
        (m1.line_no = m2.line_no ∧ m1.col_start ≤ m2.col_start)))

instance (m1 m2 : Mutation) : Decidable (claimKeyLe m1 m2) := by
  unfold claimKeyLe
  infer_instance

/-- C9 counterexample: on the input `["x and y", "a == b"]` the raw
emission order is `[LCR at line 1, ROR at line 2]`, so the list is not
sorted with the table factor outermost (an ROR entry follows an LCR
entry). -/
theorem claim_C9_counterexample :
    ¬ (rawCandidates ["x and y".toList, "a == b".toList]).Pairwise claimKeyLe := by
  decide

/-- The per-line emission the spec describes, written independently of the
generator loop: the catalog tables in declared order, each entry's
occurrence starts ascending, then the CRP matches; line order is the
outermost factor (`specEmissionFrom`). -/
def specLineEmission (i : Int) (line : List Char) : List Mutation :=
  (catalog.flatMap fun ot =>
    ot.2.flatMap fun p =>
      ((List.range (line.length + 1)).filter (fun s => matchesAt line p.1 s)).map
        (fun s => (⟨ot.1, i, s, s + p.1.length, p.1, p.2⟩ : Mutation))) ++
  crpMutations i line

/-- Line-major enumeration of `specLineEmission`, line numbers from `k`. -/
def specEmissionFrom (k : Int) : List (List Char) → List Mutation
  | [] => []
  | line :: rest => specLineEmission k line ++ specEmissionFrom (k + 1) rest

/-- The order the amended claim asserts of the raw emission. -/
def specEmission (lines : List (List Char)) : List Mutation :=
  specEmissionFrom 1 lines

theorem tableMutations_eq_spec (op : String) (tbl : List (List Char × List Char))
    (i : Int) (line : List Char) :
    tableMutations op tbl i line =
      tbl.flatMap fun p =>
        ((List.range (line.length + 1)).filter (fun s => matchesAt line p.1 s)).map
          (fun s => (⟨op, i, s, s + p.1.length, p.1, p.2⟩ : Mutation)) := by
  unfold tableMutations
  refine congrArg _ (funext fun p => ?_)
  rw [find_all_substrings_eq, List.map_map]
  rfl

theorem mutationsForLine_eq_spec (i : Int) (line : List Char) :
    mutationsForLine i line = specLineEmission i line := by
  unfold mutationsForLine specLineEmission
  rw [tableMutations_eq_spec, tableMutations_eq_spec, tableMutations_eq_spec,
    tableMutations_eq_spec]
  simp only [catalog, List.flatMap_cons, List.flatMap_nil, List.append_nil,
    List.append_assoc]

/-- C9 (amended): the raw emission order is line order × table order
(ROR, LCR, NMC, AOR, CRP, each table's entries in declared order, each
entry's occurrences in ascending position), with the line factor outermost
— not the table factor — and no re-sorting by position is performed. -/
theorem claim_C9_emission_order (lines : List (List Char)) :
    rawCandidates lines = specEmission lines := by
  unfold rawCandidates specEmission
  suffices h : ∀ (k : Int) (ls : List (List Char)), rawFrom k ls = specEmissionFrom k ls by
    exact h 1 lines
  intro k ls
  induction ls generalizing k with
  | nil => rfl
  | cons l rest ih =>
    unfold rawFrom specEmissionFrom
    rw [mutationsForLine_eq_spec, ih]

/-! ### The diff renderer (claim C8)

`unified_diff_u3` delegates to Python's stdlib `difflib.unified_diff`,
which is not part of this repository; the stdlib side is modelled from the
spec below. -/

inductive DiffTag where
  | equal
  | replace
  | delete
  | insert
deriving DecidableEq, Repr

/-- One `(tag, i1, i2, j1, j2)` opcode of `SequenceMatcher.get_opcodes`. -/
structure Opcode where
  tag : DiffTag
  i1 : Nat
  i2 : Nat
  j1 : Nat
  j2 : Nat
deriving DecidableEq, Repr

/-- Length of the longest common prefix of two line sequences. -/
def commonPrefixLen : List (List Char) → List (List Char) → Nat
  | x :: xs, y :: ys => if x = y then commonPrefixLen xs ys + 1 else 0
  | _, _ => 0

/-- Opcode list for common-prefix length `p` and common-suffix length `s`:
an `equal` block, one changed block, an `equal` block, empty blocks
omitted. -/
def opcodesOf (a b : List (List Char)) (p s : Nat) : List Opcode :=
  (if 0 < p then [⟨.equal, 0, p, 0, p⟩] else []) ++
  (if 0 < a.length - p - s then
    (if 0 < b.length - p - s then [⟨.replace, p, a.length - s, p, b.length - s⟩]
     else [⟨.delete, p, a.length - s, p, p⟩])
   else
    (if 0 < b.length - p - s then [⟨.insert, p, p, p, b.length - s⟩] else [])) ++
  (if 0 < s then [⟨.equal, a.length - s, a.length, b.length - s, b.length⟩] else [])

/-- Modelled from the spec: `difflib.SequenceMatcher(None, a, b).get_opcodes()`
(Python stdlib, not in this repository) partitions both sequences into
`equal` and changed blocks in order.  It is modelled by trimming the common
prefix and suffix and tagging the middle; the renderer properties proved
here depend only on the partition contract. -/
def get_opcodes (a b : List (List Char)) : List Opcode :=
  opcodesOf a b (commonPrefixLen a b)
    (commonPrefixLen (a.drop (commonPrefixLen a b)).reverse
      (b.drop (commonPrefixLen a b)).reverse)

/-- Modelled from the spec: `get_grouped_opcodes(3)` (Python stdlib) yields
no group when every opcode is `equal` (equal inputs) and otherwise at least
one group around the changed opcodes; the renderer properties proved here
depend only on that, so the opcodes are kept as a single group. -/
def get_grouped_opcodes (codes : List Opcode) : List (List Opcode) :=
  if codes.all (fun c => c.tag == DiffTag.equal) then [] else [codes]

/-- `_format_range_unified(start, stop)`: `start+1` for a length-1 range,
otherwise `beginning,length` with `beginning` not incremented when the
range is empty. -/
def fmtRange (start stop : Nat) : List Char :=
  if stop - start = 1 then (Nat.repr (start + 1)).toList
  else
    (Nat.repr (if stop - start = 0 then start else start + 1)).toList ++
      ',' :: (Nat.repr (stop - start)).toList

/-- Python `l[s:e]` on the line sequence. -/
def pySliceL (l : List (List Char)) (s e : Nat) : List (List Char) :=
  (l.drop s).take (e - s)

/-- The `@@ -r1 +r2 @@` header of one group (`lineterm` is empty). -/
def hunkHeader (g : List Opcode) : List Char :=
  ['@', '@', ' ', '-'] ++
    fmtRange ((g.headD ⟨.equal, 0, 0, 0, 0⟩).i1) ((g.getLastD ⟨.equal, 0, 0, 0, 0⟩).i2) ++
  [' ', '+'] ++
    fmtRange ((g.headD ⟨.equal, 0, 0, 0, 0⟩).j1) ((g.getLastD ⟨.equal, 0, 0, 0, 0⟩).j2) ++
  [' ', '@', '@']

/-- The body lines one opcode contributes: context lines prefixed by a
space, removed lines by `-`, added lines by `+`. -/
def opcodeLines (a b : List (List Char)) (c : Opcode) : List (List Char) :=
  match c.tag with
  | .equal => (pySliceL a c.i1 c.i2).map (fun l => ' ' :: l)
  | .replace => (pySliceL a c.i1 c.i2).map (fun l => '-' :: l) ++
      (pySliceL b c.j1 c.j2).map (fun l => '+' :: l)
  | .delete => (pySliceL a c.i1 c.i2).map (fun l => '-' :: l)
  | .insert => (pySliceL b c.j1 c.j2).map (fun l => '+' :: l)

/-- Modelled from the spec: `difflib.unified_diff(a, b, fromfile, tofile,
lineterm="", n=3)` (Python stdlib): nothing when there is no group,
otherwise the two file header lines once, then each group's `@@` header and
body lines. -/
def unified_diff (a b : List (List Char)) (fromfile tofile : List Char) :
    List (List Char) :=
  match get_grouped_opcodes (get_opcodes a b) with
  | [] => []
  | g :: gs =>
    (['-', '-', '-', ' '] ++ fromfile) :: (['+', '+', '+', ' '] ++ tofile) ::
      (g :: gs).flatMap (fun gr => hunkHeader gr :: gr.flatMap (opcodeLines a b))

/-- Python `"\n".join(...)`. -/
def joinNL : List (List Char) → List Char
  | [] => []
  | [x] => x
  | x :: y :: xs => x ++ '\n' :: joinNL (y :: xs)

/-- `unified_diff_u3(original, mutated, relpath)`: the joined diff lines of
`difflib.unified_diff` with `a/`- and `b/`-prefixed headers, plus a final
newline. -/
def unified_diff_u3 (original mutated : List (List Char)) (relpath : List Char) :
    List Char :=
  joinNL (unified_diff original mutated (['a', '/'] ++ relpath)
    (['b', '/'] ++ relpath)) ++ ['\n']

theorem commonPrefixLen_le_left :
    ∀ xs ys : List (List Char), commonPrefixLen xs ys ≤ xs.length := by
  intro xs
  induction xs with
  | nil => intro ys; cases ys <;> simp [commonPrefixLen]
  | cons x xs ih =>
    intro ys
    cases ys with
    | nil => simp [commonPrefixLen]
    | cons y ys =>
      rw [commonPrefixLen]
      split
      · have := ih ys
        simp only [List.length_cons]
        omega
      · simp

theorem commonPrefixLen_le_right :
    ∀ xs ys : List (List Char), commonPrefixLen xs ys ≤ ys.length := by
  intro xs
  induction xs with
  | nil => intro ys; cases ys <;> simp [commonPrefixLen]
  | cons x xs ih =>
    intro ys
    cases ys with
    | nil => simp [commonPrefixLen]
    | cons y ys =>
      rw [commonPrefixLen]
      split
      · have := ih ys
        simp only [List.length_cons]
        omega
      · simp

theorem commonPrefixLen_take :
    ∀ xs ys : List (List Char),
      xs.take (commonPrefixLen xs ys) = ys.take (commonPrefixLen xs ys) := by
  intro xs
  induction xs with
  | nil => intro ys; cases ys <;> simp [commonPrefixLen]
  | cons x xs ih =>
    intro ys
    cases ys with
    | nil => simp [commonPrefixLen]
    | cons y ys =>
      rw [commonPrefixLen]
      split
      next heq =>
        rw [List.take_succ_cons, List.take_succ_cons, heq, ih ys]
      next => simp

theorem eq_of_no_middle {a b : List (List Char)}
    (hma : ¬ 0 < a.length - commonPrefixLen a b -
      commonPrefixLen (a.drop (commonPrefixLen a b)).reverse
        (b.drop (commonPrefixLen a b)).reverse)
    (hmb : ¬ 0 < b.length - commonPrefixLen a b -
      commonPrefixLen (a.drop (commonPrefixLen a b)).reverse
        (b.drop (commonPrefixLen a b)).reverse) :
    a = b := by
  have hsla := commonPrefixLen_le_left (a.drop (commonPrefixLen a b)).reverse
    (b.drop (commonPrefixLen a b)).reverse
  have hslb := commonPrefixLen_le_right (a.drop (commonPrefixLen a b)).reverse
    (b.drop (commonPrefixLen a b)).reverse
  rw [List.length_reverse, List.length_drop] at hsla
  rw [List.length_reverse, List.length_drop] at hslb
  have hpa := commonPrefixLen_le_left a b
  have hpb := commonPrefixLen_le_right a b
  have hreva : (a.drop (commonPrefixLen a b)).reverse.length =
      commonPrefixLen (a.drop (commonPrefixLen a b)).reverse
        (b.drop (commonPrefixLen a b)).reverse := by
    rw [List.length_reverse, List.length_drop]
    omega
  have hrevb : (b.drop (commonPrefixLen a b)).reverse.length =
      commonPrefixLen (a.drop (commonPrefixLen a b)).reverse
        (b.drop (commonPrefixLen a b)).reverse := by
    rw [List.length_reverse, List.length_drop]
    omega
  have htk := commonPrefixLen_take (a.drop (commonPrefixLen a b)).reverse
    (b.drop (commonPrefixLen a b)).reverse
  have hlen : (a.drop (commonPrefixLen a b)).reverse.length =
      (b.drop (commonPrefixLen a b)).reverse.length := hreva.trans hrevb.symm
  rw [← hreva, List.take_length] at htk
  conv_rhs at htk => rw [hlen, List.take_length]
  have hdrop : a.drop (commonPrefixLen a b) = b.drop (commonPrefixLen a b) :=
    List.reverse_injective htk
  have := commonPrefixLen_take a b
  calc a = a.take (commonPrefixLen a b) ++ a.drop (commonPrefixLen a b) :=
        (List.take_append_drop _ _).symm
    _ = b.take (commonPrefixLen a b) ++ b.drop (commonPrefixLen a b) := by
        rw [this, hdrop]
    _ = b := List.take_append_drop _ _

theorem get_opcodes_not_all_equal {a b : List (List Char)} (hab : a ≠ b) :
    ((get_opcodes a b).all (fun c => c.tag == DiffTag.equal)) = false := by
  unfold get_opcodes opcodesOf
  rw [List.all_append, List.all_append]
  by_cases hma : 0 < a.length - commonPrefixLen a b -
      commonPrefixLen (a.drop (commonPrefixLen a b)).reverse
        (b.drop (commonPrefixLen a b)).reverse
  · rw [if_pos hma]
    by_cases hmb : 0 < b.length - commonPrefixLen a b -
        commonPrefixLen (a.drop (commonPrefixLen a b)).reverse
          (b.drop (commonPrefixLen a b)).reverse
    · rw [if_pos hmb]
      simp
    · rw [if_neg hmb]
      simp
  · rw [if_neg hma]
    by_cases hmb : 0 < b.length - commonPrefixLen a b -
        commonPrefixLen (a.drop (commonPrefixLen a b)).reverse
          (b.drop (commonPrefixLen a b)).reverse
    · rw [if_pos hmb]
      simp
    · exact absurd (eq_of_no_middle hma hmb) hab

theorem get_grouped_nonempty {a b : List (List Char)} (hab : a ≠ b) :
    get_grouped_opcodes (get_opcodes a b) = [get_opcodes a b] := by
  unfold get_grouped_opcodes
  rw [get_opcodes_not_all_equal hab]
  rfl

theorem joinNL_first (x : List Char) (xs : List (List Char)) :
    ∃ t, joinNL (x :: xs) = x ++ t := by
  cases xs with
  | nil => exact ⟨[], by simp [joinNL]⟩
  | cons y ys => exact ⟨'\n' :: joinNL (y :: ys), rfl⟩

/-- C8 counterexample: on equal sequences (here two empty sequences)
`difflib.unified_diff` yields no lines, so `unified_diff_u3` returns just
the final newline, which does not start with `--- a/` (and contains no
`+++ b/` or `@@`). -/
theorem claim_C8_counterexample :
    unified_diff_u3 [] [] ['p'] = ['\n'] ∧
      ∀ t : List Char, ['\n'] ≠ ['-', '-', '-', ' ', 'a', '/'] ++ t := by
  constructor
  · rfl
  · intro t h
    have hh := congrArg List.head? h
    simp at hh

/-- C8 (amended): whenever the two line sequences differ, the string
returned by `unified_diff_u3` starts with `--- a/`, contains `+++ b/`,
contains an `@@` hunk marker, and ends with a newline (for equal sequences
the result is just a newline). -/
theorem claim_C8_diff_shape (a b : List (List Char)) (rel : List Char) (hab : a ≠ b) :
    (∃ t, unified_diff_u3 a b rel = ['-', '-', '-', ' ', 'a', '/'] ++ rel ++ t) ∧
    (∃ u v, unified_diff_u3 a b rel = u ++ ['+', '+', '+', ' ', 'b', '/'] ++ v) ∧
    (∃ u v, unified_diff_u3 a b rel = u ++ ['@', '@'] ++ v) ∧
    (∃ w, unified_diff_u3 a b rel = w ++ ['\n']) := by
  have hg := get_grouped_nonempty hab
  unfold unified_diff_u3 unified_diff
  simp only [hg, List.flatMap_cons, List.flatMap_nil, List.append_nil]
  obtain ⟨t3, ht3⟩ := joinNL_first (hunkHeader (get_opcodes a b))
    ((get_opcodes a b).flatMap (opcodeLines a b))
  rw [joinNL, joinNL, ht3]
  refine ⟨?_, ?_, ?_, ?_⟩
  · refine ⟨'\n' :: ((['+', '+', '+', ' '] ++ (['b', '/'] ++ rel)) ++
      '\n' :: (hunkHeader (get_opcodes a b) ++ t3)) ++ ['\n'], ?_⟩
    simp [List.append_assoc]
  · refine ⟨(['-', '-', '-', ' '] ++ (['a', '/'] ++ rel)) ++ ['\n'],
      rel ++ '\n' :: (hunkHeader (get_opcodes a b) ++ t3) ++ ['\n'], ?_⟩
    simp [List.append_assoc]
  · refine ⟨((['-', '-', '-', ' '] ++ (['a', '/'] ++ rel)) ++
      '\n' :: (['+', '+', '+', ' '] ++ (['b', '/'] ++ rel))) ++ ['\n'],
      [' ', '-'] ++
        fmtRange (((get_opcodes a b).headD ⟨.equal, 0, 0, 0, 0⟩).i1)
          (((get_opcodes a b).getLastD ⟨.equal, 0, 0, 0, 0⟩).i2) ++
      [' ', '+'] ++
        fmtRange (((get_opcodes a b).headD ⟨.equal, 0, 0, 0, 0⟩).j1)
          (((get_opcodes a b).getLastD ⟨.equal, 0, 0, 0, 0⟩).j2) ++
      [' ', '@', '@'] ++ t3 ++ ['\n'], ?_⟩
    rw [hunkHeader]
    simp [List.append_assoc]
  · exact ⟨_, rfl⟩

theorem claim_C8_witness :
    (∃ t, unified_diff_u3 [['x']] [['y']] ['p'] =
      ['-', '-', '-', ' ', 'a', '/'] ++ ['p'] ++ t) ∧
    (∃ u v, unified_diff_u3 [['x']] [['y']] ['p'] =
      u ++ ['+', '+', '+', ' ', 'b', '/'] ++ v) ∧
    (∃ u v, unified_diff_u3 [['x']] [['y']] ['p'] = u ++ ['@', '@'] ++ v) ∧
    (∃ w, unified_diff_u3 [['x']] [['y']] ['p'] = w ++ ['\n']) :=
  claim_C8_diff_shape [['x']] [['y']] ['p'] (by decide)

end Mutate
